import Mathlib

/-!
Shallow embedding of `app/clients/claude_client.py` (DeepClaude repository):
the token-pool manager (`TokenManager`), the client constructor
(`ClaudeClient.__init__`), the quota-rotation request loop
(`ClaudeClient._make_request` / `_update_headers`) and the SSE stream
decoding loop of `ClaudeClient.stream_chat`.

Python machine-level conventions modelled explicitly:
- Python string operations (`strip`, slicing, `split`, `startswith`) are
  re-implemented character-wise (`pyStrip`, `pyDrop`, `pySplit`,
  `pyStartsWith`), matching the Python per-character semantics.
- `json.loads` is an abstract parameter `parse : String -> Option Json`
  (`none` models `json.JSONDecodeError`); the shape of parsed values is the
  inductive `Json`, and the dynamic attribute/index errors Python would
  raise on ill-shaped values are modelled as explicit failure outcomes.
- The HTTP transport is a list of scripted `HttpResponse`s, one consumed
  per request attempt of the `while True` loop.
-/

section PythonStrings

/-- Python `str.strip()`: drop leading and trailing whitespace (character-wise). -/
def pyStrip (s : String) : String :=
  ⟨((s.data.dropWhile Char.isWhitespace).reverse.dropWhile Char.isWhitespace).reverse⟩

/-- Python `s[n:]`: drop the first `n` characters. -/
def pyDrop (s : String) (n : Nat) : String := ⟨s.data.drop n⟩

/-- Python `s.startswith(pre)`. -/
def pyStartsWith (pre s : String) : Bool := pre.data.isPrefixOf s.data

/-- Helper for `pySplit`: accumulate the current piece (reversed) while scanning. -/
def pySplitAux (sep : Char) : List Char → List Char → List (List Char)
  | [], acc => [acc.reverse]
  | c :: cs, acc =>
    if c = sep then acc.reverse :: pySplitAux sep cs []
    else pySplitAux sep cs (c :: acc)

/-- Python `s.split(sep)` for a one-character separator (keeps empty pieces). -/
def pySplit (s : String) (sep : Char) : List String :=
  (pySplitAux sep s.data []).map fun cs => ⟨cs⟩

end PythonStrings

section TokenManagerModel

/-- One entry of the token pool file: a dict carrying a token string and an
exhausted flag, the flag read with a dict-get defaulting to false. -/
structure TokenInfo where
  token : String
  exhausted : Bool
deriving DecidableEq

/-- State of `TokenManager`: the loaded entry list and the rotation cursor
`current_token_index`. -/
structure TokenManager where
  tokens : List TokenInfo
  current_token_index : Nat
deriving DecidableEq

/-- Outcome of one run of the `while True` scan in `get_next_token`. -/
inductive NextResult where
  | found (t : String)
  | absent
  | oob
deriving DecidableEq

/-- The `while True` loop body of `TokenManager.get_next_token`, with an
explicit fuel (the initial call passes `tokens.length`, which bounds the
number of iterations because the loop stops when the cursor returns to
`start`).  Returns the outcome, the final cursor value, and the number of
entries probed.  `.oob` models the `IndexError` Python would raise if the
cursor were out of bounds (shown unreachable for reachable states). -/
def getNextLoop (tokens : List TokenInfo) (start : Nat) : Nat → Nat → NextResult × Nat × Nat
  | _, 0 => (.oob, 0, 0)
  | cur, fuel + 1 =>
    match tokens.get? cur with
    | none => (.oob, cur, 0)
    | some ti =>
      if ti.exhausted then
        let cur' := (cur + 1) % tokens.length
        if cur' = start then (.absent, cur', 1)
        else
          let r := getNextLoop tokens start cur' fuel
          (r.1, r.2.1, r.2.2 + 1)
      else (.found ti.token, cur, 1)

/-- Model of `TokenManager.get_next_token`: returns the next usable token
(or `none`) together with the updated manager state. -/
def TokenManager.get_next_token (tm : TokenManager) : Option String × TokenManager :=
  if tm.tokens.isEmpty then (none, tm)
  else
    match getNextLoop tm.tokens tm.current_token_index tm.current_token_index tm.tokens.length with
    | (.found t, fc, _) => (some t, { tm with current_token_index := fc })
    | (_, fc, _) => (none, { tm with current_token_index := fc })

/-- Number of pool entries probed by `get_next_token` (instrumentation of the
same scan). -/
def TokenManager.get_next_probes (tm : TokenManager) : Nat :=
  if tm.tokens.isEmpty then 0
  else (getNextLoop tm.tokens tm.current_token_index tm.current_token_index tm.tokens.length).2.2

/-- The `for i, token_info in enumerate(self.tokens)` scan of
`mark_token_exhausted`: returns the index of the first entry whose token
matches (if any) and the updated list. -/
def markScan (t : String) : List TokenInfo → Option Nat × List TokenInfo
  | [] => (none, [])
  | ti :: rest =>
    if ti.token = t then (some 0, { ti with exhausted := true } :: rest)
    else
      let r := markScan t rest
      match r.1 with
      | some i => (some (i + 1), ti :: r.2)
      | none => (none, ti :: r.2)

/-- Model of `TokenManager.mark_token_exhausted`: flag the first entry whose
token equals `t` and advance the cursor just past it (mod pool length). -/
def TokenManager.mark_token_exhausted (tm : TokenManager) (t : String) : TokenManager :=
  match markScan t tm.tokens with
  | (some i, toks) => ⟨toks, (i + 1) % toks.length⟩
  | (none, toks) => ⟨toks, tm.current_token_index⟩

/-- Wrapper for `mark_token_exhausted(self.api_key)` where the key may be the
Python `None`: comparing a token string with `None` is always false, so a
`None` key marks nothing. -/
def TokenManager.mark_opt (tm : TokenManager) : Option String → TokenManager
  | none => tm
  | some t => tm.mark_token_exhausted t

/-- Model of `TokenManager.reset_exhausted_status`: clear every flag. -/
def TokenManager.reset_exhausted_status (tm : TokenManager) : TokenManager :=
  ⟨tm.tokens.map (fun ti => { ti with exhausted := false }), tm.current_token_index⟩

/-- Holds when the entry at position `p` exists and is not exhausted. -/
def freshAt (tokens : List TokenInfo) (p : Nat) : Bool :=
  match tokens.get? p with
  | some ti => !ti.exhausted
  | none => false

/-- Number of non-exhausted entries in the pool. -/
def usableCount (tm : TokenManager) : Nat :=
  tm.tokens.countP (fun ti => !ti.exhausted)

/-- Holds when the pool has a non-exhausted entry whose token equals the
given (possibly absent) key. -/
def hasFreshKey (tm : TokenManager) : Option String → Bool
  | none => false
  | some t => tm.tokens.any (fun ti => ti.token = t && !ti.exhausted)

/-- Token-manager states reachable from a freshly loaded pool (`load_tokens`
sets the list and leaves the cursor at 0) through the public operations. -/
inductive Reachable : TokenManager → Prop
  | load (tokens : List TokenInfo) : Reachable ⟨tokens, 0⟩
  | next {tm : TokenManager} : Reachable tm → Reachable tm.get_next_token.2
  | mark {tm : TokenManager} (t : String) : Reachable tm → Reachable (tm.mark_token_exhausted t)
  | reset {tm : TokenManager} : Reachable tm → Reachable tm.reset_exhausted_status

end TokenManagerModel

section JsonModel

/-- Values produced by `json.loads` (numbers collapsed to integers; the
claims under study never inspect numeric content). -/
inductive Json where
  | null
  | bool (b : Bool)
  | str (s : String)
  | num (n : Int)
  | arr (xs : List Json)
  | obj (kvs : List (String × Json))

/-- Python `dict` lookup on the key/value list of an object. -/
def jlookup (kvs : List (String × Json)) (k : String) : Option Json :=
  (kvs.find? (fun p => p.1 = k)).map (fun p => p.2)

/-- Python truthiness of a decoded JSON value. -/
def Json.truthy : Json → Bool
  | .null => false
  | .bool b => b
  | .str s => !(s = "")
  | .num n => !(n = 0)
  | .arr xs => !xs.isEmpty
  | .obj kvs => !kvs.isEmpty

/-- Python `value.get(key)`: succeeds only on a dict; on any other value it
raises `AttributeError` (modelled as `.error`). -/
def pyGet (j : Json) (k : String) : Except Unit (Option Json) :=
  match j with
  | .obj kvs => .ok (jlookup kvs k)
  | _ => .error ()

/-- Python `value[0]`: succeeds only on a non-empty list; any other receiver
raises (`IndexError`/`TypeError`/`KeyError`), modelled as `.error`. -/
def pyIndex0 : Json → Except Unit Json
  | .arr (x :: _) => .ok x
  | _ => .error ()

end JsonModel

section StreamDecoding

/-- OpenRouter / OneAPI response grammar: read key "choices" with a
one-empty-dict default, index 0, read key "delta" with an empty-dict default,
read key "content" with an empty-string default, then apply the truthiness
test.  Result `.ok (some c)` is a yielded content value, `.ok none` no
yield, `.error` an uncaught dynamic exception. -/
def extractOpenAI (j : Json) : Except Unit (Option Json) := do
  let choices ← (pyGet j "choices").map (fun o => o.getD (Json.arr [Json.obj []]))
  let first ← pyIndex0 choices
  let delta ← (pyGet first "delta").map (fun o => o.getD (Json.obj []))
  let content ← (pyGet delta "content").map (fun o => o.getD (Json.str ""))
  pure (if content.truthy then some content else none)

/-- Anthropic response grammar: the text under key "delta" gated on the
value under key "type" being the string "content_block_delta". -/
def extractAnthropic (j : Json) : Except Unit (Option Json) := do
  let typ ← pyGet j "type"
  match typ with
  | some (Json.str s) =>
    if s = "content_block_delta" then do
      let delta ← (pyGet j "delta").map (fun o => o.getD (Json.obj []))
      let content ← (pyGet delta "text").map (fun o => o.getD (Json.str ""))
      pure (if content.truthy then some content else none)
    else pure none
  | _ => pure none

/-- Provider dispatch of the content extraction inside the decode loop of
`stream_chat`; an unknown provider raises `ValueError` (not caught by the
JSON-decode handler), modelled as `.error`. -/
def extractContent (provider : String) (j : Json) : Except Unit (Option Json) :=
  if provider = "openrouter" ∨ provider = "oneapi" then extractOpenAI j
  else if provider = "anthropic" then extractAnthropic j
  else .error ()

/-- Result of processing one line of a chunk. -/
inductive LineOut where
  | skip
  | stop
  | yieldEv (ev : String × Json)
  | crashed

/-- One iteration of `for line in chunk_str.split('\n')`. -/
def process_line (provider : String) (parse : String → Option Json) (line : String) : LineOut :=
  if pyStartsWith "data: " line then
    let json_str := pyDrop line 6
    if pyStrip json_str = "[DONE]" then .stop
    else
      match parse json_str with
      | none => .skip
      | some j =>
        match extractContent provider j with
        | .error _ => .crashed
        | .ok none => .skip
        | .ok (some c) => .yieldEv ("answer", c)
  else .skip

/-- Outcome of decoding a list of lines/chunks: `.more` = all consumed and
the generator keeps going, `.done` = the `[DONE]` sentinel returned from the
generator, `.crash` = an uncaught exception escaped.  Each carries the
output events yielded so far. -/
inductive DecodeOut where
  | more (evs : List (String × Json))
  | done (evs : List (String × Json))
  | crash (evs : List (String × Json))

/-- Prefix some already-yielded events onto a decode outcome. -/
def DecodeOut.prepend (evs : List (String × Json)) : DecodeOut → DecodeOut
  | .more l => .more (evs ++ l)
  | .done l => .done (evs ++ l)
  | .crash l => .crash (evs ++ l)

/-- Decode the lines of one chunk in order. -/
def process_lines (provider : String) (parse : String → Option Json) : List String → DecodeOut
  | [] => .more []
  | l :: ls =>
    match process_line provider parse l with
    | .skip => process_lines provider parse ls
    | .stop => .done []
    | .crashed => .crash []
    | .yieldEv ev => (process_lines provider parse ls).prepend [ev]

/-- Decode one chunk: blank chunks are skipped, otherwise split on `'\n'`. -/
def process_chunk (provider : String) (parse : String → Option Json) (c : String) : DecodeOut :=
  if pyStrip c = "" then .more []
  else process_lines provider parse (pySplit c '\n')

/-- Decode the whole chunk stream (`async for chunk in self._make_request`):
a `[DONE]` sentinel or a crash in one chunk stops all later chunks. -/
def process_chunks (provider : String) (parse : String → Option Json) : List String → DecodeOut
  | [] => .more []
  | c :: cs =>
    match process_chunk provider parse c with
    | .more evs => (process_chunks provider parse cs).prepend evs
    | .done evs => .done evs
    | .crash evs => .crash evs

end StreamDecoding

section ClientModel

/-- State of a constructed `ClaudeClient` relevant to the claims: the token
manager, the active credential `self.api_key` (Python `None` possible), and
the provider string. -/
structure ClaudeClient where
  token_manager : TokenManager
  api_key : Option String
  provider : String

/-- Python truthiness of `Optional[str]` (`None` and `""` are falsy). -/
def strOptTruthy : Option String → Bool
  | none => false
  | some s => !(s = "")

/-- Model of `ClaudeClient.__init__` (the token file is abstracted to the
entry list it yields; `load_tokens` leaves the cursor at 0).  Result
`.error` models the raised `ValueError`. -/
def ClaudeClient.init (api_key : String) (tokens : List TokenInfo) (provider : String) :
    Except String ClaudeClient :=
  let tm : TokenManager := ⟨tokens, 0⟩
  let r := tm.get_next_token
  if !strOptTruthy r.1 && !(api_key = "") then .error "没有可用的 token"
  else if !(api_key = "") then .ok ⟨r.2, some api_key, provider⟩
  else .ok ⟨r.2, r.1, provider⟩

/-- Python dict assignment on the header list: replace the value in place if
the key is present, otherwise append. -/
def headersSet : List (String × String) → String → String → List (String × String)
  | [], k, v => [(k, v)]
  | p :: rest, k, v => if p.1 = k then (k, v) :: rest else p :: headersSet rest k v

/-- Dict lookup on the header list. -/
def headerGet (hdrs : List (String × String)) (k : String) : Option String :=
  (hdrs.find? (fun p => p.1 = k)).map (fun p => p.2)

/-- Model of `ClaudeClient._update_headers`: set the provider-appropriate
auth header. -/
def update_headers (provider : String) (headers : List (String × String)) (new_token : String) :
    List (String × String) :=
  if provider = "anthropic" then headersSet headers "x-api-key" new_token
  else headersSet headers "Authorization" ("Bearer " ++ new_token)

/-- One scripted transport response for an attempt of `_make_request`:
a 200 streaming body (its decoded chunks), a non-200 body text, or a raised
transport exception. -/
inductive HttpResponse where
  | ok (chunks : List String)
  | httpError (body : String)
  | exn

/-- Quota detection on the parsed error body: read key "error" with an
empty-dict default, read key "code", compare with the string
"insufficient_user_quota".  All non-quota outcomes (JSON decode failure,
ill-shaped body, different code) make `_make_request` log and return, so
they are collapsed to `false`. -/
def isQuotaError (parse : String → Option Json) (body : String) : Bool :=
  match parse body with
  | some (Json.obj kvs) =>
    match (jlookup kvs "error").getD (Json.obj []) with
    | Json.obj ekvs =>
      match jlookup ekvs "code" with
      | some (Json.str s) => s = "insufficient_user_quota"
      | _ => false
    | _ => false
  | _ => false

/-- Result of the `_make_request` loop: the raw chunks yielded, the final
client state, and the number of request attempts issued. -/
structure ReqResult where
  chunks : List String
  client : ClaudeClient
  attempts : Nat

/-- Model of `ClaudeClient._make_request`: the unconditional retry loop, one
scripted response consumed per attempt (an exhausted script ends the run
with no further attempts). -/
def make_request (parse : String → Option Json) :
    ClaudeClient → List (String × String) → List HttpResponse → ReqResult
  | c, _, [] => ⟨[], c, 0⟩
  | c, hdrs, r :: rest =>
    match r with
    | .ok chunks => ⟨chunks, c, 1⟩
    | .exn => ⟨[], c, 1⟩
    | .httpError body =>
      if isQuotaError parse body then
        let tm1 := c.token_manager.mark_opt c.api_key
        match tm1.get_next_token with
        | (none, tm2) => ⟨[], ⟨tm2, c.api_key, c.provider⟩, 1⟩
        | (some t, tm2) =>
          let r' := make_request parse ⟨tm2, some t, c.provider⟩
            (update_headers c.provider hdrs t) rest
          ⟨r'.chunks, r'.client, r'.attempts + 1⟩
      else ⟨[], c, 1⟩

/-- A concrete `json.loads` stand-in used by the concrete evaluations below:
a finite table of payload strings. -/
def testParse : String → Option Json
  | "quota-body" =>
    some (Json.obj [("error", Json.obj [("code", Json.str "insufficient_user_quota")])])
  | "payload-hi" =>
    some (Json.obj [("type", Json.str "content_block_delta"),
                    ("delta", Json.obj [("text", Json.str "Hi")])])
  | "payload-ok" =>
    some (Json.obj [("choices", Json.arr [Json.obj [("delta",
                    Json.obj [("content", Json.str "ok")])]])])
  | _ => none

end ClientModel

section TokenManagerLemmas

theorem get_next_token_tokens_eq (tm : TokenManager) :
    (tm.get_next_token).2.tokens = tm.tokens := by
  unfold TokenManager.get_next_token
  split
  · rfl
  · split <;> rfl

theorem getNextLoop_cursor_lt (tokens : List TokenInfo) (start : Nat)
    (hN : 0 < tokens.length) :
    ∀ fuel cur, cur < tokens.length →
      (getNextLoop tokens start cur fuel).2.1 < tokens.length := by
  intro fuel
  induction fuel with
  | zero => intro cur _; simpa [getNextLoop] using hN
  | succ n ih =>
    intro cur hc
    simp only [getNextLoop]
    split
    · exact hc
    · split
      · split
        · exact Nat.mod_lt _ hN
        · exact ih _ (Nat.mod_lt _ hN)
      · exact hc

theorem get_next_token_cursor_lt (tm : TokenManager) (hne : tm.tokens ≠ [])
    (hc : tm.current_token_index < tm.tokens.length) :
    (tm.get_next_token).2.current_token_index < tm.tokens.length := by
  have hN : 0 < tm.tokens.length := List.length_pos.mpr hne
  have hloop := getNextLoop_cursor_lt tm.tokens tm.current_token_index hN
    tm.tokens.length tm.current_token_index hc
  unfold TokenManager.get_next_token
  split
  · exact hc
  · split
    next t fc p heq => rw [heq] at hloop; exact hloop
    next r fc p hne2 heq => rw [heq] at hloop; exact hloop

theorem getNextLoop_found (tokens : List TokenInfo) (start : Nat) :
    ∀ fuel cur t fc p, getNextLoop tokens start cur fuel = (.found t, fc, p) →
      ∃ ti, tokens.get? fc = some ti ∧ ti.token = t ∧ ti.exhausted = false := by
  intro fuel
  induction fuel with
  | zero => intro cur t fc p h; simp [getNextLoop] at h
  | succ n ih =>
    intro cur t fc p h
    simp only [getNextLoop] at h
    split at h
    · simp at h
    · split at h
      · split at h
        · simp at h
        · simp only [Prod.mk.injEq] at h
          obtain ⟨h1, h2, _⟩ := h
          refine ih ((cur + 1) % tokens.length) t fc
            (getNextLoop tokens start ((cur + 1) % tokens.length) n).2.2 ?_
          have hrfl : getNextLoop tokens start ((cur + 1) % tokens.length) n =
              ((getNextLoop tokens start ((cur + 1) % tokens.length) n).1,
               (getNextLoop tokens start ((cur + 1) % tokens.length) n).2.1,
               (getNextLoop tokens start ((cur + 1) % tokens.length) n).2.2) := rfl
          rw [hrfl, h1, h2]
      · rename_i ti hg hne
        simp only [Prod.mk.injEq, NextResult.found.injEq] at h
        obtain ⟨h1, h2, _⟩ := h
        exact ⟨ti, by rw [← h2]; exact hg, h1, by simpa using hne⟩

theorem get_next_token_found_at_cursor (tm : TokenManager) (ti : TokenInfo)
    (h1 : tm.tokens.get? tm.current_token_index = some ti)
    (h2 : ti.exhausted = false) :
    tm.get_next_token = (some ti.token, tm) := by
  have hlt : tm.current_token_index < tm.tokens.length := by
    rcases List.get?_eq_some.mp h1 with ⟨h, _⟩
    exact h
  have hN : 0 < tm.tokens.length := Nat.lt_of_le_of_lt (Nat.zero_le _) hlt
  obtain ⟨m, hm⟩ : ∃ m, tm.tokens.length = m + 1 :=
    ⟨tm.tokens.length - 1, by omega⟩
  have hloop : getNextLoop tm.tokens tm.current_token_index tm.current_token_index
      tm.tokens.length = (.found ti.token, tm.current_token_index, 1) := by
    rw [hm]
    rw [List.get?_eq_getElem?] at h1
    simp [getNextLoop, h1, h2]
  unfold TokenManager.get_next_token
  rw [if_neg (by simp [List.isEmpty_iff]; exact List.ne_nil_of_length_pos hN), hloop]

theorem getNextLoop_finds (tokens : List TokenInfo) (start : Nat) :
    ∀ j fuel cur ti, cur < tokens.length → j < fuel → fuel ≤ tokens.length →
      (cur + fuel) % tokens.length = start →
      (∀ k, k < j → freshAt tokens ((cur + k) % tokens.length) = false) →
      tokens.get? ((cur + j) % tokens.length) = some ti →
      ti.exhausted = false →
      getNextLoop tokens start cur fuel =
        (.found ti.token, (cur + j) % tokens.length, j + 1) := by
  intro j
  induction j with
  | zero =>
    intro fuel cur ti hcur hj _ _ _ hget hex
    obtain ⟨f, rfl⟩ : ∃ f, fuel = f + 1 := ⟨fuel - 1, by omega⟩
    have hcc : (cur + 0) % tokens.length = cur := by
      rw [Nat.add_zero]; exact Nat.mod_eq_of_lt hcur
    rw [hcc] at hget
    simp only [getNextLoop]
    split
    · rename_i heq; rw [hget] at heq; exact Option.noConfusion heq
    · rename_i ti1 heq
      have hti : ti1 = ti := by rw [heq] at hget; injection hget
      subst hti
      rw [if_neg (by rw [hex]; simp), hcc]
  | succ j ih =>
    intro fuel cur ti hcur hj hfN hrel hfr hget hex
    obtain ⟨f, rfl⟩ : ∃ f, fuel = f + 1 := ⟨fuel - 1, by omega⟩
    have hN : 0 < tokens.length := Nat.lt_of_le_of_lt (Nat.zero_le _) hcur
    obtain ⟨ti0, hget0⟩ : ∃ ti0, tokens.get? cur = some ti0 :=
      ⟨_, List.get?_eq_get hcur⟩
    have hex0 : ti0.exhausted = true := by
      have hfr0 := hfr 0 (Nat.succ_pos j)
      rw [Nat.add_zero, Nat.mod_eq_of_lt hcur] at hfr0
      unfold freshAt at hfr0
      rw [hget0] at hfr0
      simpa using hfr0
    have hne2 : ¬((cur + 1) % tokens.length = start) := by
      intro hEq
      have hmeq : (cur + 1) % tokens.length = (cur + 1 + f) % tokens.length := by
        rw [hEq, ← hrel]; congr 1; omega
      have h0 : (cur + 1) + 0 ≡ (cur + 1) + f [MOD tokens.length] := by
        simpa [Nat.ModEq] using hmeq
      have hdvd : tokens.length ∣ f :=
        (Nat.modEq_zero_iff_dvd).mp (Nat.ModEq.add_left_cancel' (cur + 1) h0).symm
      have hf1 : 1 ≤ f := by omega
      have := Nat.le_of_dvd (by omega) hdvd
      omega
    have hrec := ih f ((cur + 1) % tokens.length) ti (Nat.mod_lt _ hN) (by omega) (by omega)
      (by rw [Nat.mod_add_mod, ← hrel]; congr 1; omega)
      (by
        intro k hk
        have hidx : ((cur + 1) % tokens.length + k) % tokens.length =
            (cur + (k + 1)) % tokens.length := by
          rw [Nat.mod_add_mod]; congr 1; omega
        rw [hidx]; exact hfr (k + 1) (by omega))
      (by
        have hidx : ((cur + 1) % tokens.length + j) % tokens.length =
            (cur + (j + 1)) % tokens.length := by
          rw [Nat.mod_add_mod]; congr 1; omega
        rw [hidx]; exact hget)
      hex
    have hidx : ((cur + 1) % tokens.length + j) % tokens.length =
        (cur + (j + 1)) % tokens.length := by
      rw [Nat.mod_add_mod]; congr 1; omega
    rw [hidx] at hrec
    simp only [getNextLoop]
    split
    · rename_i heq; rw [hget0] at heq; exact Option.noConfusion heq
    · rename_i ti1 heq
      have hti : ti1 = ti0 := by rw [heq] at hget0; injection hget0
      subst hti
      rw [if_pos hex0, if_neg hne2, hrec]

theorem getNextLoop_exhausts (tokens : List TokenInfo) (start : Nat) :
    ∀ fuel cur, 0 < fuel → fuel ≤ tokens.length → cur < tokens.length →
      (cur + fuel) % tokens.length = start →
      (∀ k, k < fuel → freshAt tokens ((cur + k) % tokens.length) = false) →
      getNextLoop tokens start cur fuel = (.absent, start, fuel) := by
  intro fuel
  induction fuel with
  | zero => intro cur h; omega
  | succ f ih =>
    intro cur _ hfN hcur hrel hfr
    have hN : 0 < tokens.length := Nat.lt_of_le_of_lt (Nat.zero_le _) hcur
    obtain ⟨ti0, hget0⟩ : ∃ ti0, tokens.get? cur = some ti0 :=
      ⟨_, List.get?_eq_get hcur⟩
    have hex0 : ti0.exhausted = true := by
      have hfr0 := hfr 0 (Nat.succ_pos f)
      rw [Nat.add_zero, Nat.mod_eq_of_lt hcur] at hfr0
      unfold freshAt at hfr0
      rw [hget0] at hfr0
      simpa using hfr0
    rcases Nat.eq_zero_or_pos f with hf0 | hfpos
    · subst hf0
      simp only [getNextLoop]
      split
      · rename_i heq; rw [hget0] at heq; exact Option.noConfusion heq
      · rename_i ti1 heq
        have hti : ti1 = ti0 := by rw [heq] at hget0; injection hget0
        subst hti
        rw [if_pos hex0, if_pos (by rw [← hrel])]
        rw [← hrel]
    · have hne2 : ¬((cur + 1) % tokens.length = start) := by
        intro hEq
        have hmeq : (cur + 1) % tokens.length = (cur + 1 + f) % tokens.length := by
          rw [hEq, ← hrel]; congr 1; omega
        have h0 : (cur + 1) + 0 ≡ (cur + 1) + f [MOD tokens.length] := by
          simpa [Nat.ModEq] using hmeq
        have hdvd : tokens.length ∣ f :=
          (Nat.modEq_zero_iff_dvd).mp (Nat.ModEq.add_left_cancel' (cur + 1) h0).symm
        have := Nat.le_of_dvd hfpos hdvd
        omega
      have hrec := ih ((cur + 1) % tokens.length) hfpos (by omega) (Nat.mod_lt _ hN)
        (by rw [Nat.mod_add_mod, ← hrel]; congr 1; omega)
        (by
          intro k hk
          have hidx : ((cur + 1) % tokens.length + k) % tokens.length =
              (cur + (k + 1)) % tokens.length := by
            rw [Nat.mod_add_mod]; congr 1; omega
          rw [hidx]; exact hfr (k + 1) (by omega))
      simp only [getNextLoop]
      split
      · rename_i heq; rw [hget0] at heq; exact Option.noConfusion heq
      · rename_i ti1 heq
        have hti : ti1 = ti0 := by rw [heq] at hget0; injection hget0
        subst hti
        rw [if_pos hex0, if_neg hne2, hrec]

theorem markScan_not_found (t : String) :
    ∀ l : List TokenInfo, (∀ ti ∈ l, ti.token ≠ t) → markScan t l = (none, l) := by
  intro l
  induction l with
  | nil => intro _; rfl
  | cons x rest ih =>
    intro h
    have hx : ¬(x.token = t) := h x (List.mem_cons_self x rest)
    have hrest := ih (fun ti hti => h ti (List.mem_cons_of_mem x hti))
    simp only [markScan, if_neg hx, hrest]

theorem markScan_found (t : String) :
    ∀ (l : List TokenInfo) (i : Nat) (ti : TokenInfo),
      l.get? i = some ti → ti.token = t →
      (∀ tk ∈ l.take i, tk.token ≠ t) →
      markScan t l = (some i, l.set i ⟨ti.token, true⟩) := by
  intro l
  induction l with
  | nil => intro i ti h; simp at h
  | cons x rest ih =>
    intro i ti hget htk hpre
    cases i with
    | zero =>
      have hx : x = ti := by injection hget
      subst hx
      simp only [markScan, if_pos htk, List.set]
    | succ i' =>
      have hx : ¬(x.token = t) := hpre x (by simp [List.take])
      have hrec := ih i' ti hget htk (fun tk htk' => hpre tk (by simp [List.take]; right; exact htk'))
      simp only [markScan, if_neg hx, hrec, List.set]

theorem markScan_length (t : String) :
    ∀ l : List TokenInfo, ((markScan t l).2).length = l.length := by
  intro l
  induction l with
  | nil => rfl
  | cons x rest ih =>
    simp only [markScan]
    split
    · simp
    · split <;> simp [ih]

theorem markScan_map_token (t : String) :
    ∀ l : List TokenInfo, ((markScan t l).2).map TokenInfo.token = l.map TokenInfo.token := by
  intro l
  induction l with
  | nil => rfl
  | cons x rest ih =>
    simp only [markScan]
    split
    · simp
    · split <;> simp [ih]

theorem mark_token_exhausted_found (tm : TokenManager) (t : String) (i : Nat) (ti : TokenInfo)
    (h1 : tm.tokens.get? i = some ti) (h2 : ti.token = t)
    (h3 : ∀ tk ∈ tm.tokens.take i, tk.token ≠ t) :
    tm.mark_token_exhausted t =
      ⟨tm.tokens.set i ⟨ti.token, true⟩, (i + 1) % tm.tokens.length⟩ := by
  unfold TokenManager.mark_token_exhausted
  rw [markScan_found t tm.tokens i ti h1 h2 h3]
  simp [List.length_set]

theorem mark_token_exhausted_not_found (tm : TokenManager) (t : String)
    (h : ∀ ti ∈ tm.tokens, ti.token ≠ t) :
    tm.mark_token_exhausted t = tm := by
  unfold TokenManager.mark_token_exhausted
  rw [markScan_not_found t tm.tokens h]

theorem mark_tokens_length (tm : TokenManager) (t : String) :
    (tm.mark_token_exhausted t).tokens.length = tm.tokens.length := by
  unfold TokenManager.mark_token_exhausted
  rcases hm : markScan t tm.tokens with ⟨r, toks⟩
  have := markScan_length t tm.tokens
  rw [hm] at this
  cases r <;> simpa using this

theorem mark_map_token (tm : TokenManager) (t : String) :
    (tm.mark_token_exhausted t).tokens.map TokenInfo.token =
      tm.tokens.map TokenInfo.token := by
  unfold TokenManager.mark_token_exhausted
  rcases hm : markScan t tm.tokens with ⟨r, toks⟩
  have := markScan_map_token t tm.tokens
  rw [hm] at this
  cases r <;> simpa using this

theorem mark_cursor_lt (tm : TokenManager) (t : String)
    (hinv : tm.tokens ≠ [] → tm.current_token_index < tm.tokens.length) :
    (tm.mark_token_exhausted t).tokens ≠ [] →
      (tm.mark_token_exhausted t).current_token_index <
        (tm.mark_token_exhausted t).tokens.length := by
  intro hne
  have hlen := mark_tokens_length tm t
  have hN : 0 < (tm.mark_token_exhausted t).tokens.length := List.length_pos.mpr hne
  unfold TokenManager.mark_token_exhausted at hN hlen ⊢
  rcases hm : markScan t tm.tokens with ⟨r, toks⟩
  rw [hm] at hN hlen
  cases r with
  | some i => simpa using Nat.mod_lt _ (by simpa using hN)
  | none =>
    simp only at hN hlen ⊢
    rw [hlen]
    exact hinv (List.ne_nil_of_length_pos (hlen ▸ hN))

theorem reachable_cursor_lt {tm : TokenManager} (hr : Reachable tm) :
    tm.tokens ≠ [] → tm.current_token_index < tm.tokens.length := by
  induction hr with
  | load tokens => intro h; exact List.length_pos.mpr h
  | next hr ih =>
    rename_i tm0
    intro h
    have htok := get_next_token_tokens_eq tm0
    rw [htok] at h ⊢
    rw [show (tm0.get_next_token.2).current_token_index =
        (tm0.get_next_token.2).current_token_index from rfl]
    exact get_next_token_cursor_lt tm0 h (ih h)
  | mark t hr ih => rename_i tm0; exact mark_cursor_lt tm0 t ih
  | reset hr ih =>
    rename_i tm0
    intro h
    unfold TokenManager.reset_exhausted_status at h ⊢
    simp only [List.length_map]
    exact ih (by simpa using h)

theorem get_next_token_empty (tm : TokenManager) (h : tm.tokens = []) :
    tm.get_next_token = (none, tm) := by
  unfold TokenManager.get_next_token
  rw [if_pos (by rw [h]; rfl)]

theorem get_next_token_spec_found (tm : TokenManager) (j : Nat) (ti : TokenInfo)
    (hc : tm.current_token_index < tm.tokens.length)
    (hj : j < tm.tokens.length)
    (hfr : ∀ k, k < j →
      freshAt tm.tokens ((tm.current_token_index + k) % tm.tokens.length) = false)
    (hget : tm.tokens.get? ((tm.current_token_index + j) % tm.tokens.length) = some ti)
    (hex : ti.exhausted = false) :
    tm.get_next_token =
      (some ti.token, ⟨tm.tokens, (tm.current_token_index + j) % tm.tokens.length⟩) := by
  have hN : 0 < tm.tokens.length := Nat.lt_of_le_of_lt (Nat.zero_le _) hj
  have hrel : (tm.current_token_index + tm.tokens.length) % tm.tokens.length =
      tm.current_token_index := by
    rw [Nat.add_mod_right]; exact Nat.mod_eq_of_lt hc
  have hloop := getNextLoop_finds tm.tokens tm.current_token_index j tm.tokens.length
    tm.current_token_index ti hc hj (Nat.le_refl _) hrel hfr hget hex
  unfold TokenManager.get_next_token
  rw [if_neg (by simp [List.isEmpty_iff]; exact List.ne_nil_of_length_pos hN), hloop]

theorem get_next_token_all_exhausted (tm : TokenManager)
    (hc : tm.tokens ≠ [] → tm.current_token_index < tm.tokens.length)
    (hall : ∀ ti ∈ tm.tokens, ti.exhausted = true) :
    tm.get_next_token = (none, tm) ∧ tm.get_next_probes = tm.tokens.length := by
  rcases eq_or_ne tm.tokens [] with he | hne
  · refine ⟨get_next_token_empty tm he, ?_⟩
    unfold TokenManager.get_next_probes
    rw [if_pos (by rw [he]; rfl), he]
    rfl
  · have hcur := hc hne
    have hN : 0 < tm.tokens.length := List.length_pos.mpr hne
    have hfr : ∀ k, k < tm.tokens.length →
        freshAt tm.tokens ((tm.current_token_index + k) % tm.tokens.length) = false := by
      intro k _
      cases hg : tm.tokens.get? ((tm.current_token_index + k) % tm.tokens.length) with
      | none => unfold freshAt; rw [hg]
      | some ti => unfold freshAt; rw [hg]; simp [hall ti (List.get?_mem hg)]
    have hrel : (tm.current_token_index + tm.tokens.length) % tm.tokens.length =
        tm.current_token_index := by
      rw [Nat.add_mod_right]; exact Nat.mod_eq_of_lt hcur
    have hloop := getNextLoop_exhausts tm.tokens tm.current_token_index tm.tokens.length
      tm.current_token_index hN (Nat.le_refl _) hcur hrel hfr
    constructor
    · unfold TokenManager.get_next_token
      rw [if_neg (by simp [List.isEmpty_iff]; exact hne), hloop]
    · unfold TokenManager.get_next_probes
      rw [if_neg (by simp [List.isEmpty_iff]; exact hne), hloop]

theorem getNextLoop_no_oob (tokens : List TokenInfo) (start : Nat) :
    ∀ fuel cur, 0 < fuel → fuel ≤ tokens.length → cur < tokens.length →
      (cur + fuel) % tokens.length = start →
      (getNextLoop tokens start cur fuel).1 ≠ NextResult.oob := by
  intro fuel
  induction fuel with
  | zero => intro cur h; omega
  | succ f ih =>
    intro cur _ hfN hcur hrel
    obtain ⟨ti0, hget0⟩ : ∃ ti0, tokens.get? cur = some ti0 :=
      ⟨_, List.get?_eq_get hcur⟩
    have hN : 0 < tokens.length := Nat.lt_of_le_of_lt (Nat.zero_le _) hcur
    simp only [getNextLoop]
    split
    · rename_i heq; rw [hget0] at heq; exact Option.noConfusion heq
    · rename_i ti1 heq
      split
      · split
        · simp
        · rename_i hexh hne2
          have hfpos : 0 < f := by
            rcases Nat.eq_zero_or_pos f with h0 | h
            · exfalso; apply hne2; rw [← hrel]; congr 1; omega
            · exact h
          have := ih ((cur + 1) % tokens.length) hfpos (by omega) (Nat.mod_lt _ hN)
            (by rw [Nat.mod_add_mod, ← hrel]; congr 1; omega)
          simpa using this
      · simp

end TokenManagerLemmas

section TokenManagerClaims

/-- C1: the claim says construction raises a configuration error iff neither an
explicit API key nor a usable pool token is available, and that a supplied
explicit key becomes the initial credential.  The code has the condition
inverted: with an explicit key and an empty pool it raises (first conjunct),
and with no key and no pool token it constructs successfully with a `None`
credential (second conjunct) — contradicting both the claim and the intent of
its own error message.  This theorem evaluates `ClaudeClient.__init__` at the
two failing inputs. -/
theorem C1_init_code_bug :
    ClaudeClient.init "explicit-key" [] "anthropic" = Except.error "没有可用的 token"
    ∧ ClaudeClient.init "" [] "anthropic" =
        Except.ok ⟨⟨[], 0⟩, none, "anthropic"⟩ :=
  ⟨rfl, rfl⟩

/-- C2 (counterexample): with pool `[("a", exhausted), ("b", fresh)]` and
cursor 0, `get_next_token` succeeds (returns `"b"`) yet moves the cursor from
0 to 1 — refuting "a successful next() leaves the cursor unchanged; the
cursor is advanced only by markExhausted". -/
theorem C2_counterexample :
    (⟨[⟨"a", true⟩, ⟨"b", false⟩], 0⟩ : TokenManager).get_next_token =
      (some "b", ⟨[⟨"a", true⟩, ⟨"b", false⟩], 1⟩)
    ∧ (1 : Nat) ≠ 0 :=
  ⟨rfl, by decide⟩

/-- C2 (amended): a successful `next()` leaves the entry list unchanged and
ends with the cursor on the index of the returned, non-exhausted entry; in
particular the cursor is unchanged whenever the entry at the starting cursor
was already non-exhausted (the scan only moves the cursor past exhausted
entries it skips). -/
theorem C2_amended (tm : TokenManager) (t : String) (tm' : TokenManager)
    (h : tm.get_next_token = (some t, tm')) :
    tm'.tokens = tm.tokens
    ∧ (∃ ti, tm'.tokens.get? tm'.current_token_index = some ti ∧
        ti.token = t ∧ ti.exhausted = false)
    ∧ (∀ ti, tm.tokens.get? tm.current_token_index = some ti →
        ti.exhausted = false → tm' = tm) := by
  refine ⟨?_, ?_, ?_⟩
  · have htok := get_next_token_tokens_eq tm
    rw [h] at htok
    exact htok
  · unfold TokenManager.get_next_token at h
    split at h
    · exact absurd h (by simp)
    · split at h
      · rename_i t0 fc p heq
        obtain ⟨ti, hfc, htk, hex⟩ := getNextLoop_found tm.tokens tm.current_token_index
          tm.tokens.length tm.current_token_index t0 fc p heq
        have h1 : some t0 = some t := congrArg Prod.fst h
        have h2 : ({ tm with current_token_index := fc } : TokenManager) = tm' :=
          congrArg Prod.snd h
        have ht0 : t0 = t := by injection h1
        refine ⟨ti, ?_, by rw [htk, ht0], hex⟩
        rw [← h2]
        exact hfc
      · exact absurd h (by simp)
  · intro ti hget hex
    have hfound := get_next_token_found_at_cursor tm ti hget hex
    rw [h] at hfound
    exact congrArg Prod.snd hfound

/-- C2 witness: a pool whose cursor entry is fresh — the inner hypotheses of
the theorem hold, and the successful call leaves the state unchanged. -/
theorem C2_amended_witness :
    (⟨[⟨"a", false⟩], 0⟩ : TokenManager) = ⟨[⟨"a", false⟩], 0⟩ := by
  have h := (C2_amended ⟨[⟨"a", false⟩], 0⟩ "a" ⟨[⟨"a", false⟩], 0⟩ rfl).2.2
    ⟨"a", false⟩ rfl rfl
  exact h

/-- C3: for a pool of N entries with cursor i (in bounds whenever the pool is
non-empty), `next()` returns the token of the first non-exhausted entry
scanning forward from i wrapping mod N and parks the cursor there; if every
entry is exhausted it returns the absence signal after probing exactly N
entries (cursor back at i); an empty pool returns absence directly. -/
theorem C3_get_next_token (tm : TokenManager)
    (hc : tm.tokens ≠ [] → tm.current_token_index < tm.tokens.length) :
    (∀ j ti, j < tm.tokens.length →
        (∀ k, k < j →
          freshAt tm.tokens ((tm.current_token_index + k) % tm.tokens.length) = false) →
        tm.tokens.get? ((tm.current_token_index + j) % tm.tokens.length) = some ti →
        ti.exhausted = false →
        tm.get_next_token =
          (some ti.token, ⟨tm.tokens, (tm.current_token_index + j) % tm.tokens.length⟩))
    ∧ ((∀ ti ∈ tm.tokens, ti.exhausted = true) →
        tm.get_next_token = (none, tm) ∧ tm.get_next_probes = tm.tokens.length)
    ∧ (tm.tokens = [] → tm.get_next_token = (none, tm)) := by
  refine ⟨?_, get_next_token_all_exhausted tm hc, get_next_token_empty tm⟩
  intro j ti hj hfr hget hex
  have hne : tm.tokens ≠ [] :=
    List.ne_nil_of_length_pos (Nat.lt_of_le_of_lt (Nat.zero_le _) hj)
  exact get_next_token_spec_found tm j ti (hc hne) hj hfr hget hex

/-- C3 witness: pool `[a!, b!, c]` (first two exhausted), cursor 0: the scan
skips two exhausted entries and returns `"c"` with the cursor on index 2. -/
theorem C3_witness :
    (⟨[⟨"a", true⟩, ⟨"b", true⟩, ⟨"c", false⟩], 0⟩ : TokenManager).get_next_token =
      (some "c", ⟨[⟨"a", true⟩, ⟨"b", true⟩, ⟨"c", false⟩], (0 + 2) % 3⟩) :=
  (C3_get_next_token ⟨[⟨"a", true⟩, ⟨"b", true⟩, ⟨"c", false⟩], 0⟩
    (fun _ => by decide)).1 2 ⟨"c", false⟩ (by decide) (by decide) (by decide) rfl

/-- C5: `mark_token_exhausted t` flags the first entry whose token equals `t`
and moves the cursor to (index + 1) mod pool length, leaving every other
entry untouched (`List.set` expresses this); if no entry matches, the state
is completely unchanged. -/
theorem C5_mark_token_exhausted (tm : TokenManager) (t : String) :
    (∀ i ti, tm.tokens.get? i = some ti → ti.token = t →
        (∀ tk ∈ tm.tokens.take i, tk.token ≠ t) →
        tm.mark_token_exhausted t =
          ⟨tm.tokens.set i ⟨ti.token, true⟩, (i + 1) % tm.tokens.length⟩)
    ∧ ((∀ ti ∈ tm.tokens, ti.token ≠ t) → tm.mark_token_exhausted t = tm) :=
  ⟨fun i ti h1 h2 h3 => mark_token_exhausted_found tm t i ti h1 h2 h3,
   fun h => mark_token_exhausted_not_found tm t h⟩

/-- C5 witness: marking `"b"` in `[a, b]` flags the second entry and wraps
the cursor to 0. -/
theorem C5_witness :
    (⟨[⟨"a", false⟩, ⟨"b", false⟩], 0⟩ : TokenManager).mark_token_exhausted "b" =
      ⟨[⟨"a", false⟩, ⟨"b", true⟩], 0⟩ := by
  have h := (C5_mark_token_exhausted ⟨[⟨"a", false⟩, ⟨"b", false⟩], 0⟩ "b").1
    1 ⟨"b", false⟩ rfl rfl (by decide)
  exact h

/-- C7: `reset_exhausted_status` clears every exhausted flag and leaves the
cursor unchanged; consequently, on any reachable non-empty pool, a subsequent
`next()` returns a token (not the absence signal). -/
theorem C7_reset (tm : TokenManager) (hr : Reachable tm) (hne : tm.tokens ≠ []) :
    tm.reset_exhausted_status.current_token_index = tm.current_token_index
    ∧ (∀ ti ∈ tm.reset_exhausted_status.tokens, ti.exhausted = false)
    ∧ ∃ t, (tm.reset_exhausted_status.get_next_token).1 = some t := by
  refine ⟨rfl, ?_, ?_⟩
  · intro ti hti
    unfold TokenManager.reset_exhausted_status at hti
    simp only [List.mem_map] at hti
    obtain ⟨a, _, ha⟩ := hti
    rw [← ha]
  · have hc := reachable_cursor_lt hr hne
    have hbase : tm.tokens.get? tm.current_token_index =
        some (tm.tokens.get ⟨tm.current_token_index, hc⟩) := List.get?_eq_get hc
    have hget : tm.reset_exhausted_status.tokens.get?
        tm.reset_exhausted_status.current_token_index =
        some ⟨(tm.tokens.get ⟨tm.current_token_index, hc⟩).token, false⟩ := by
      unfold TokenManager.reset_exhausted_status
      simp only [List.get?_map, hbase, Option.map_some']
    have hfound := get_next_token_found_at_cursor tm.reset_exhausted_status
      ⟨(tm.tokens.get ⟨tm.current_token_index, hc⟩).token, false⟩ hget rfl
    exact ⟨_, by rw [hfound]⟩

/-- C7 witness: a loaded single-entry pool in exhausted state — after reset,
`next()` succeeds. -/
theorem C7_witness :
    ∃ t, ((⟨[⟨"a", true⟩], 0⟩ : TokenManager).reset_exhausted_status.get_next_token).1 =
      some t :=
  (C7_reset ⟨[⟨"a", true⟩], 0⟩ (Reachable.load [⟨"a", true⟩]) (by simp)).2.2

/-- C9 (implicit invariant): on every reachable `TokenManager` state, a
non-empty pool keeps the cursor strictly below the pool length, the scan of
`get_next_token` never reaches its `IndexError` branch (`.oob`), and
`next()` on an empty pool returns absence without indexing. -/
theorem C9_invariant (tm : TokenManager) (hr : Reachable tm) :
    (tm.tokens ≠ [] → tm.current_token_index < tm.tokens.length)
    ∧ (tm.tokens ≠ [] →
        (getNextLoop tm.tokens tm.current_token_index tm.current_token_index
          tm.tokens.length).1 ≠ NextResult.oob)
    ∧ (tm.tokens = [] → tm.get_next_token = (none, tm)) := by
  refine ⟨reachable_cursor_lt hr, ?_, get_next_token_empty tm⟩
  intro hne
  have hc := reachable_cursor_lt hr hne
  have hN : 0 < tm.tokens.length := List.length_pos.mpr hne
  exact getNextLoop_no_oob tm.tokens tm.current_token_index tm.tokens.length
    tm.current_token_index hN (Nat.le_refl _) hc
    (by rw [Nat.add_mod_right]; exact Nat.mod_eq_of_lt hc)

/-- C9 witness: the invariant applied to a freshly loaded two-entry pool. -/
theorem C9_witness :
    (⟨[⟨"a", true⟩, ⟨"b", true⟩], 0⟩ : TokenManager).current_token_index <
      (⟨[⟨"a", true⟩, ⟨"b", true⟩], 0⟩ : TokenManager).tokens.length :=
  (C9_invariant ⟨[⟨"a", true⟩, ⟨"b", true⟩], 0⟩
    (Reachable.load [⟨"a", true⟩, ⟨"b", true⟩])).1 (by simp)

end TokenManagerClaims

section StreamDecodingLemmas

theorem DecodeOut.prepend_nil (o : DecodeOut) : DecodeOut.prepend [] o = o := by
  cases o <;> simp [DecodeOut.prepend]

theorem DecodeOut.prepend_prepend (a b : List (String × Json)) (o : DecodeOut) :
    DecodeOut.prepend a (DecodeOut.prepend b o) = DecodeOut.prepend (a ++ b) o := by
  cases o <;> simp [DecodeOut.prepend]

theorem process_lines_append_more (p : String) (parse : String → Option Json) :
    ∀ (xs ys : List String) (evs : List (String × Json)),
      process_lines p parse xs = .more evs →
      process_lines p parse (xs ++ ys) = (process_lines p parse ys).prepend evs := by
  intro xs
  induction xs with
  | nil =>
    intro ys evs h
    have hevs : evs = [] := by
      have : DecodeOut.more [] = DecodeOut.more evs := h
      injection this with h'
      exact h'.symm
    subst hevs
    rw [List.nil_append, DecodeOut.prepend_nil]
  | cons l ls ih =>
    intro ys evs h
    rw [List.cons_append]
    simp only [process_lines] at h ⊢
    cases hl : process_line p parse l with
    | skip => rw [hl] at h; simp only at h ⊢; exact ih ys evs h
    | stop => rw [hl] at h; exact absurd h (by simp)
    | crashed => rw [hl] at h; exact absurd h (by simp)
    | yieldEv ev =>
      rw [hl] at h
      simp only at h ⊢
      cases hrec : process_lines p parse ls with
      | more evs' =>
        rw [hrec] at h
        have hevs : ev :: evs' = evs := by simpa [DecodeOut.prepend] using h
        rw [ih ys evs' hrec, DecodeOut.prepend_prepend]
        rw [show [ev] ++ evs' = evs from hevs]
      | done evs' => rw [hrec] at h; exact absurd h (by simp [DecodeOut.prepend])
      | crash evs' => rw [hrec] at h; exact absurd h (by simp [DecodeOut.prepend])

theorem process_chunks_append_more (p : String) (parse : String → Option Json) :
    ∀ (xs ys : List String) (evs : List (String × Json)),
      process_chunks p parse xs = .more evs →
      process_chunks p parse (xs ++ ys) = (process_chunks p parse ys).prepend evs := by
  intro xs
  induction xs with
  | nil =>
    intro ys evs h
    have hevs : evs = [] := by
      have : DecodeOut.more [] = DecodeOut.more evs := h
      injection this with h'
      exact h'.symm
    subst hevs
    rw [List.nil_append, DecodeOut.prepend_nil]
  | cons c cs ih =>
    intro ys evs h
    rw [List.cons_append]
    simp only [process_chunks] at h ⊢
    cases hc : process_chunk p parse c with
    | more evs0 =>
      rw [hc] at h
      simp only at h ⊢
      cases hrec : process_chunks p parse cs with
      | more evs' =>
        rw [hrec] at h
        have hevs : evs0 ++ evs' = evs := by simpa [DecodeOut.prepend] using h
        rw [ih ys evs' hrec, DecodeOut.prepend_prepend, hevs]
      | done evs' => rw [hrec] at h; exact absurd h (by simp [DecodeOut.prepend])
      | crash evs' => rw [hrec] at h; exact absurd h (by simp [DecodeOut.prepend])
    | done evs0 => rw [hc] at h; exact absurd h (by simp)
    | crash evs0 => rw [hc] at h; exact absurd h (by simp)

theorem process_line_stop (p : String) (parse : String → Option Json) (line : String)
    (h4 : pyStartsWith "data: " line = true)
    (h5 : pyStrip (pyDrop line 6) = "[DONE]") :
    process_line p parse line = .stop := by
  unfold process_line
  rw [if_pos h4, if_pos h5]

theorem process_line_skip_unparseable (p : String) (parse : String → Option Json)
    (line : String)
    (h4 : pyStartsWith "data: " line = true)
    (h5 : ¬(pyStrip (pyDrop line 6) = "[DONE]"))
    (h6 : parse (pyDrop line 6) = none) :
    process_line p parse line = .skip := by
  unfold process_line
  rw [if_pos h4, if_neg h5, h6]

end StreamDecodingLemmas

section StreamDecodingClaims

/-- C6: a line whose SSE data payload (after stripping) is the terminal
sentinel `[DONE]` ends the output sequence immediately: events decoded before
it are kept, but the remaining lines of the chunk and all following chunks
contribute nothing, and the outcome is the generator returning. -/
theorem C6_done_sentinel (p : String) (parse : String → Option Json)
    (chunks1 : List String) (evs1 : List (String × Json)) (c : String)
    (lines1 lines2 : List String) (line : String) (chunks2 : List String)
    (evs2 : List (String × Json))
    (h1 : process_chunks p parse chunks1 = .more evs1)
    (h2 : ¬(pyStrip c = ""))
    (h3 : pySplit c '\n' = lines1 ++ line :: lines2)
    (h4 : pyStartsWith "data: " line = true)
    (h5 : pyStrip (pyDrop line 6) = "[DONE]")
    (h6 : process_lines p parse lines1 = .more evs2) :
    process_chunks p parse (chunks1 ++ c :: chunks2) = .done (evs1 ++ evs2) := by
  have hchunk : process_chunk p parse c = .done evs2 := by
    unfold process_chunk
    rw [if_neg h2, h3]
    rw [process_lines_append_more p parse lines1 (line :: lines2) evs2 h6]
    have hstop : process_lines p parse (line :: lines2) = .done [] := by
      simp only [process_lines, process_line_stop p parse line h4 h5]
    rw [hstop]
    simp [DecodeOut.prepend]
  rw [process_chunks_append_more p parse chunks1 (c :: chunks2) evs1 h1]
  have hcs : process_chunks p parse (c :: chunks2) = .done evs2 := by
    simp only [process_chunks, hchunk]
  rw [hcs]
  simp [DecodeOut.prepend]

/-- C6 witness: chunk `"data: payload-hi\ndata: [DONE]\ndata: payload-hi"`
followed by another chunk — decoding stops at the sentinel with exactly the
one preceding event. -/
theorem C6_witness :
    process_chunks "anthropic" testParse
      ([] ++ "data: payload-hi\ndata: [DONE]\ndata: payload-hi" :: ["data: payload-hi"]) =
      .done ([] ++ [("answer", Json.str "Hi")]) :=
  C6_done_sentinel "anthropic" testParse [] [] _ ["data: payload-hi"]
    ["data: payload-hi"] "data: [DONE]" ["data: payload-hi"]
    [("answer", Json.str "Hi")] rfl (by decide) rfl rfl rfl rfl

/-- C8: a `data: `-prefixed line whose payload fails to parse as JSON is
silently skipped: decoding any line list with the bad line spliced in equals
decoding the same list without it (so it neither emits an event nor ends the
sequence, and surrounding lines decode normally). -/
theorem C8_malformed_skipped (p : String) (parse : String → Option Json) (line : String)
    (h1 : pyStartsWith "data: " line = true)
    (h2 : ¬(pyStrip (pyDrop line 6) = "[DONE]"))
    (h3 : parse (pyDrop line 6) = none) :
    ∀ pre post : List String,
      process_lines p parse (pre ++ line :: post) = process_lines p parse (pre ++ post) := by
  have hskip : process_line p parse line = .skip :=
    process_line_skip_unparseable p parse line h1 h2 h3
  intro pre
  induction pre with
  | nil => intro post; simp only [List.nil_append, process_lines, hskip]
  | cons x xs ih =>
    intro post
    simp only [List.cons_append, process_lines]
    cases hl : process_line p parse x with
    | skip => exact ih post
    | stop => rfl
    | crashed => rfl
    | yieldEv ev => exact congrArg (fun o => DecodeOut.prepend [ev] o) (ih post)

/-- C8 witness: the malformed line `data: notjson` between two valid lines is
skipped without affecting the events of its neighbours. -/
theorem C8_witness :
    process_lines "anthropic" testParse
      (["data: payload-hi"] ++ "data: notjson" :: ["data: payload-hi"]) =
      process_lines "anthropic" testParse (["data: payload-hi"] ++ ["data: payload-hi"]) :=
  C8_malformed_skipped "anthropic" testParse "data: notjson" rfl (by decide) rfl
    ["data: payload-hi"] ["data: payload-hi"]

end StreamDecodingClaims

section RequestLoopLemmas

theorem headersSet_get (k v : String) :
    ∀ hdrs : List (String × String), headerGet (headersSet hdrs k v) k = some v := by
  intro hdrs
  induction hdrs with
  | nil =>
    unfold headersSet headerGet
    rw [List.find?_cons_of_pos _ (by simp)]
    rfl
  | cons p rest ih =>
    by_cases hp : p.1 = k
    · unfold headersSet
      rw [if_pos hp]
      unfold headerGet
      rw [List.find?_cons_of_pos _ (by simp)]
      rfl
    · unfold headersSet
      rw [if_neg hp]
      unfold headerGet at ih ⊢
      rw [List.find?_cons_of_neg _ (by simpa using hp)]
      exact ih

theorem update_headers_get (provider : String) (hdrs : List (String × String)) (t : String) :
    headerGet (update_headers provider hdrs t)
        (if provider = "anthropic" then "x-api-key" else "Authorization") =
      some (if provider = "anthropic" then t else "Bearer " ++ t) := by
  by_cases hp : provider = "anthropic"
  · rw [if_pos hp, if_pos hp]
    unfold update_headers
    rw [if_pos hp]
    exact headersSet_get _ _ hdrs
  · rw [if_neg hp, if_neg hp]
    unfold update_headers
    rw [if_neg hp]
    exact headersSet_get _ _ hdrs

theorem make_request_quota_step (parse : String → Option Json) (c : ClaudeClient)
    (hdrs : List (String × String)) (body : String) (rest : List HttpResponse)
    (hq : isQuotaError parse body = true) :
    make_request parse c hdrs (HttpResponse.httpError body :: rest) =
      (match (c.token_manager.mark_opt c.api_key).get_next_token with
       | (none, tm2) => ⟨[], ⟨tm2, c.api_key, c.provider⟩, 1⟩
       | (some t, tm2) =>
         let r' := make_request parse ⟨tm2, some t, c.provider⟩
           (update_headers c.provider hdrs t) rest
         ⟨r'.chunks, r'.client, r'.attempts + 1⟩) := by
  simp only [make_request]
  rw [hq]
  rfl

theorem make_request_nonquota_step (parse : String → Option Json) (c : ClaudeClient)
    (hdrs : List (String × String)) (body : String) (rest : List HttpResponse)
    (hq : isQuotaError parse body = false) :
    make_request parse c hdrs (HttpResponse.httpError body :: rest) = ⟨[], c, 1⟩ := by
  simp only [make_request]
  rw [hq]
  rfl

theorem get_next_token_some_spec (tm : TokenManager) (t : String) (tm2 : TokenManager)
    (h : tm.get_next_token = (some t, tm2)) :
    tm2.tokens = tm.tokens ∧ ∃ ti ∈ tm.tokens, ti.token = t ∧ ti.exhausted = false := by
  constructor
  · have htok := get_next_token_tokens_eq tm
    rw [h] at htok
    exact htok
  · unfold TokenManager.get_next_token at h
    split at h
    · exact absurd h (by simp)
    · split at h
      · rename_i t0 fc p heq
        obtain ⟨ti, hfc, htk, hex⟩ := getNextLoop_found tm.tokens tm.current_token_index
          tm.tokens.length tm.current_token_index t0 fc p heq
        have h1 : some t0 = some t := congrArg Prod.fst h
        have ht0 : t0 = t := by injection h1
        exact ⟨ti, List.get?_mem hfc, by rw [htk, ht0], hex⟩
      · exact absurd h (by simp)

theorem markScan_cons_snd_of_ne (t : String) (x : TokenInfo) (rest : List TokenInfo)
    (hx : ¬(x.token = t)) :
    (markScan t (x :: rest)).2 = x :: (markScan t rest).2 := by
  rcases hr : markScan t rest with ⟨r1, r2⟩
  simp only [markScan, if_neg hx, hr]
  cases r1 <;> rfl

theorem countP_markScan_stale (t : String) :
    ∀ l : List TokenInfo,
      l.any (fun ti => ti.token = t && !ti.exhausted) = false →
      ((markScan t l).2).countP (fun ti => !ti.exhausted) =
        l.countP (fun ti => !ti.exhausted) := by
  intro l
  induction l with
  | nil => intro _; rfl
  | cons x rest ih =>
    intro hany
    rw [List.any_cons, Bool.or_eq_false_iff] at hany
    obtain ⟨hx, hrest⟩ := hany
    by_cases hxt : x.token = t
    · have hex : x.exhausted = true := by
        by_cases hb : x.exhausted = true
        · exact hb
        · exfalso
          have hbf : x.exhausted = false := by simpa using hb
          rw [hxt] at hx
          simp [hbf] at hx
      unfold markScan
      rw [if_pos hxt]
      simp [List.countP_cons, hex]
    · rw [markScan_cons_snd_of_ne t x rest hxt]
      rw [List.countP_cons, List.countP_cons, ih hrest]

theorem countP_markScan_fresh (t : String) :
    ∀ l : List TokenInfo,
      (l.map TokenInfo.token).Nodup →
      l.any (fun ti => ti.token = t && !ti.exhausted) = true →
      ((markScan t l).2).countP (fun ti => !ti.exhausted) + 1 =
        l.countP (fun ti => !ti.exhausted) := by
  intro l
  induction l with
  | nil => intro _ h; simp at h
  | cons x rest ih =>
    intro hnd hany
    rw [List.map_cons, List.nodup_cons] at hnd
    obtain ⟨hnotin, hndrest⟩ := hnd
    by_cases hxt : x.token = t
    · have hex : x.exhausted = false := by
        by_cases hb : x.exhausted = true
        · exfalso
          rw [List.any_cons] at hany
          have hxfalse : (decide (x.token = t) && !x.exhausted) = false := by
            simp [hb]
          rw [hxfalse, Bool.false_or] at hany
          obtain ⟨ti, hti, hp⟩ := List.any_eq_true.mp hany
          have htik : ti.token = t := by
            simp only [Bool.and_eq_true, decide_eq_true_eq] at hp
            exact hp.1
          exact hnotin (List.mem_map.mpr ⟨ti, hti, by rw [htik, hxt]⟩)
        · simpa using hb
      unfold markScan
      rw [if_pos hxt]
      simp [List.countP_cons, hex]
    · have hany' : rest.any (fun ti => ti.token = t && !ti.exhausted) = true := by
        rw [List.any_cons] at hany
        have hxfalse : (decide (x.token = t) && !x.exhausted) = false := by
          simp [hxt]
        rw [hxfalse, Bool.false_or] at hany
        exact hany
      rw [markScan_cons_snd_of_ne t x rest hxt]
      rw [List.countP_cons, List.countP_cons, ← ih hndrest hany']
      omega

theorem usable_mark_fresh (tm : TokenManager) (t : String)
    (hnd : (tm.tokens.map TokenInfo.token).Nodup)
    (hfr : hasFreshKey tm (some t) = true) :
    usableCount (tm.mark_token_exhausted t) + 1 = usableCount tm := by
  have hcount := countP_markScan_fresh t tm.tokens hnd (by simpa [hasFreshKey] using hfr)
  unfold usableCount TokenManager.mark_token_exhausted
  rcases hm : markScan t tm.tokens with ⟨r, toks⟩
  rw [hm] at hcount
  cases r <;> simpa using hcount

theorem usable_mark_stale (tm : TokenManager) (t : String)
    (hfr : hasFreshKey tm (some t) = false) :
    usableCount (tm.mark_token_exhausted t) = usableCount tm := by
  have hcount := countP_markScan_stale t tm.tokens (by simpa [hasFreshKey] using hfr)
  unfold usableCount TokenManager.mark_token_exhausted
  rcases hm : markScan t tm.tokens with ⟨r, toks⟩
  rw [hm] at hcount
  cases r <;> simpa using hcount

theorem mark_opt_map_token (tm : TokenManager) (k : Option String) :
    (tm.mark_opt k).tokens.map TokenInfo.token = tm.tokens.map TokenInfo.token := by
  cases k with
  | none => rfl
  | some t => exact mark_map_token tm t

theorem usable_mark_opt_fresh (tm : TokenManager) (k : Option String)
    (hnd : (tm.tokens.map TokenInfo.token).Nodup)
    (hfr : hasFreshKey tm k = true) :
    usableCount (tm.mark_opt k) + 1 = usableCount tm := by
  cases k with
  | none => simp [hasFreshKey] at hfr
  | some t => exact usable_mark_fresh tm t hnd hfr

theorem usable_mark_opt_stale (tm : TokenManager) (k : Option String)
    (hfr : hasFreshKey tm k = false) :
    usableCount (tm.mark_opt k) = usableCount tm := by
  cases k with
  | none => rfl
  | some t => exact usable_mark_stale tm t hfr

theorem usable_eq_of_tokens_eq (tm tm' : TokenManager) (h : tm'.tokens = tm.tokens) :
    usableCount tm' = usableCount tm := by
  unfold usableCount
  rw [h]

theorem hasFreshKey_usable_pos (tm : TokenManager) (k : Option String)
    (h : hasFreshKey tm k = true) : 0 < usableCount tm := by
  cases k with
  | none => simp [hasFreshKey] at h
  | some t =>
    have h' : tm.tokens.any (fun ti => ti.token = t && !ti.exhausted) = true := by
      simpa [hasFreshKey] using h
    obtain ⟨ti, hti, hp⟩ := List.any_eq_true.mp h'
    have hex : (!ti.exhausted) = true := by
      simp only [Bool.and_eq_true] at hp
      exact hp.2
    exact List.countP_pos.mpr ⟨ti, hti, hex⟩

theorem make_request_attempts_bound (parse : String → Option Json) :
    ∀ (rs : List HttpResponse) (c : ClaudeClient) (hdrs : List (String × String)),
      (c.token_manager.tokens.map TokenInfo.token).Nodup →
      (make_request parse c hdrs rs).attempts ≤
        usableCount c.token_manager +
          (if hasFreshKey c.token_manager c.api_key = true then 0 else 1) := by
  intro rs
  induction rs with
  | nil => intro c hdrs _; exact Nat.zero_le _
  | cons r rest ih =>
    intro c hdrs hnd
    have hone : ∀ n : Nat, n = 1 →
        n ≤ usableCount c.token_manager +
          (if hasFreshKey c.token_manager c.api_key = true then 0 else 1) := by
      intro n hn
      subst hn
      by_cases hf : hasFreshKey c.token_manager c.api_key = true
      · rw [if_pos hf]
        simpa using hasFreshKey_usable_pos c.token_manager c.api_key hf
      · rw [if_neg hf]
        omega
    cases r with
    | ok chunks => exact hone _ rfl
    | exn => exact hone _ rfl
    | httpError body =>
      rcases Bool.eq_false_or_eq_true (isQuotaError parse body) with hq | hq
      swap
      · rw [make_request_nonquota_step parse c hdrs body rest hq]
        exact hone _ rfl
      · rw [make_request_quota_step parse c hdrs body rest hq]
        rcases hnext : (c.token_manager.mark_opt c.api_key).get_next_token with ⟨nt, tm2⟩
        cases nt with
        | none => exact hone _ rfl
        | some t =>
          obtain ⟨htoks, hexists⟩ :=
            get_next_token_some_spec (c.token_manager.mark_opt c.api_key) t tm2 hnext
          have hnd2 : (tm2.tokens.map TokenInfo.token).Nodup := by
            rw [htoks, mark_opt_map_token]
            exact hnd
          have hfresh2 : hasFreshKey tm2 (some t) = true := by
            obtain ⟨ti, hti, htk, hex⟩ := hexists
            unfold hasFreshKey
            exact List.any_eq_true.mpr ⟨ti, by rw [htoks]; exact hti, by simp [htk, hex]⟩
          have hrec := ih ⟨tm2, some t, c.provider⟩ (update_headers c.provider hdrs t) hnd2
          rw [if_pos hfresh2] at hrec
          have hrec2 : (make_request parse ⟨tm2, some t, c.provider⟩
              (update_headers c.provider hdrs t) rest).attempts ≤ usableCount tm2 := by
            simpa using hrec
          have husable2 : usableCount tm2 = usableCount (c.token_manager.mark_opt c.api_key) :=
            usable_eq_of_tokens_eq _ _ htoks
      -- attempts of the rotated call is bounded by the strictly smaller usable count
          show (make_request parse ⟨tm2, some t, c.provider⟩
              (update_headers c.provider hdrs t) rest).attempts + 1 ≤
            usableCount c.token_manager +
              (if hasFreshKey c.token_manager c.api_key = true then 0 else 1)
          by_cases hf : hasFreshKey c.token_manager c.api_key = true
          · rw [if_pos hf]
            have hdrop := usable_mark_opt_fresh c.token_manager c.api_key hnd hf
            omega
          · rw [if_neg hf]
            have hkeep := usable_mark_opt_stale c.token_manager c.api_key
              (Bool.eq_false_iff.mpr hf)
            omega

end RequestLoopLemmas

section RequestLoopClaims

/-- C4: when a non-success response parses to the quota-exhaustion code, the
loop marks the active credential exhausted and asks the pool for the next
token.  If one is available (first conjunct), the whole run equals the run
restarted once with the rotated credential — same chunks and final client,
exactly one extra attempt, and the provider-appropriate auth header set to
the new token; the quota failure itself contributes no output.  If none is
available (second conjunct), the run ends with zero chunks — hence zero
output events (`process_chunks` of an empty chunk list yields none) — and
the quota error is logged, not raised. -/
theorem C4_quota_rotation (parse : String → Option Json) (c : ClaudeClient)
    (hdrs : List (String × String)) (body : String) (rest : List HttpResponse)
    (hq : isQuotaError parse body = true) :
    (∀ (t : String) (tm2 : TokenManager),
        (c.token_manager.mark_opt c.api_key).get_next_token = (some t, tm2) →
        make_request parse c hdrs (HttpResponse.httpError body :: rest) =
          ⟨(make_request parse ⟨tm2, some t, c.provider⟩
              (update_headers c.provider hdrs t) rest).chunks,
           (make_request parse ⟨tm2, some t, c.provider⟩
              (update_headers c.provider hdrs t) rest).client,
           (make_request parse ⟨tm2, some t, c.provider⟩
              (update_headers c.provider hdrs t) rest).attempts + 1⟩
        ∧ headerGet (update_headers c.provider hdrs t)
            (if c.provider = "anthropic" then "x-api-key" else "Authorization") =
          some (if c.provider = "anthropic" then t else "Bearer " ++ t))
    ∧ (∀ tm2 : TokenManager,
        (c.token_manager.mark_opt c.api_key).get_next_token = (none, tm2) →
        make_request parse c hdrs (HttpResponse.httpError body :: rest) =
          ⟨[], ⟨tm2, c.api_key, c.provider⟩, 1⟩
        ∧ process_chunks c.provider parse [] = DecodeOut.more []) := by
  constructor
  · intro t tm2 hnext
    refine ⟨?_, update_headers_get c.provider hdrs t⟩
    rw [make_request_quota_step parse c hdrs body rest hq, hnext]
  · intro tm2 hnext
    refine ⟨?_, rfl⟩
    rw [make_request_quota_step parse c hdrs body rest hq, hnext]

/-- C4 witness: a two-token pool, a quota error on the first attempt, then a
successful stream — one rotation, two attempts, chunks from the retry. -/
theorem C4_witness :
    make_request testParse ⟨⟨[⟨"t1", false⟩, ⟨"t2", false⟩], 0⟩, some "t1", "anthropic"⟩
      [("x-api-key", "t1")] [HttpResponse.httpError "quota-body", HttpResponse.ok ["c1"]] =
      ⟨["c1"], ⟨⟨[⟨"t1", true⟩, ⟨"t2", false⟩], 1⟩, some "t2", "anthropic"⟩, 2⟩ := by
  have h := ((C4_quota_rotation testParse
      ⟨⟨[⟨"t1", false⟩, ⟨"t2", false⟩], 0⟩, some "t1", "anthropic"⟩
      [("x-api-key", "t1")] "quota-body" [HttpResponse.ok ["c1"]] rfl).1
      "t2" ⟨[⟨"t1", true⟩, ⟨"t2", false⟩], 1⟩ rfl).1
  rw [h]
  rfl

/-- C10 (counterexample): with two pool entries sharing the same token value
`"t"`, `mark_token_exhausted` always re-marks the first (already exhausted)
entry, so `get_next_token` keeps returning the untouched duplicate and the
retry loop does not stop after N+1 = 3 attempts: four quota responses give
four attempts, refuting the claimed N+1 bound. -/
theorem C10_counterexample :
    (make_request testParse ⟨⟨[⟨"t", false⟩, ⟨"t", false⟩], 0⟩, some "t", "anthropic"⟩ []
        (List.replicate 4 (HttpResponse.httpError "quota-body"))).attempts = 4
    ∧ ¬((4 : Nat) ≤ ([(⟨"t", false⟩ : TokenInfo), ⟨"t", false⟩]).length + 1) :=
  ⟨rfl, by decide⟩

/-- C10 (amended): provided the token values of the pool are pairwise distinct,
the quota-retry loop always terminates within N+1 request attempts for a
pool of N entries, over every scripted response sequence: each rotation
consumes a token the pool handed out as non-exhausted and marks it on the
next quota failure, so the usable supply strictly decreases. -/
theorem C10_attempts_bounded (parse : String → Option Json) (c : ClaudeClient)
    (hdrs : List (String × String)) (rs : List HttpResponse)
    (hnd : (c.token_manager.tokens.map TokenInfo.token).Nodup) :
    (make_request parse c hdrs rs).attempts ≤ c.token_manager.tokens.length + 1 := by
  have h := make_request_attempts_bound parse rs c hdrs hnd
  have hle : usableCount c.token_manager ≤ c.token_manager.tokens.length :=
    List.countP_le_length _
  by_cases hf : hasFreshKey c.token_manager c.api_key = true
  · rw [if_pos hf] at h; omega
  · rw [if_neg hf] at h; omega

/-- C10 witness: the bound applied to a distinct-token pool facing a burst of
quota errors. -/
theorem C10_witness :
    (make_request testParse ⟨⟨[⟨"t1", false⟩, ⟨"t2", false⟩], 0⟩, some "t1", "anthropic"⟩ []
        (List.replicate 4 (HttpResponse.httpError "quota-body"))).attempts ≤
      ([(⟨"t1", false⟩ : TokenInfo), ⟨"t2", false⟩]).length + 1 :=
  C10_attempts_bounded testParse
    ⟨⟨[⟨"t1", false⟩, ⟨"t2", false⟩], 0⟩, some "t1", "anthropic"⟩ []
    (List.replicate 4 (HttpResponse.httpError "quota-body")) (by decide)

end RequestLoopClaims

section EndToEnd

/-- End-to-end scenario from the spec: pool `[t1, t2]`, the first request fails
with the quota code, the retry under `t2` streams one content line and the
sentinel; the decoded output is exactly one `("answer", "Hi")` event. -/
theorem quota_rotation_end_to_end :
    make_request testParse ⟨⟨[⟨"t1", false⟩, ⟨"t2", false⟩], 0⟩, some "t1", "anthropic"⟩
      [("x-api-key", "t1")]
      [HttpResponse.httpError "quota-body",
       HttpResponse.ok ["data: payload-hi\ndata: [DONE]"]] =
      ⟨["data: payload-hi\ndata: [DONE]"],
       ⟨⟨[⟨"t1", true⟩, ⟨"t2", false⟩], 1⟩, some "t2", "anthropic"⟩, 2⟩
    ∧ process_chunks "anthropic" testParse ["data: payload-hi\ndata: [DONE]"] =
      .done [("answer", Json.str "Hi")] :=
  ⟨rfl, rfl⟩

/-- OpenRouter grammar scenario from the spec: one OpenAI-style delta line yields
`("answer", "ok")`. -/
theorem openrouter_delta_line :
    process_chunks "openrouter" testParse ["data: payload-ok"] =
      .more [("answer", Json.str "ok")] := rfl

end EndToEnd
